import Mathlib

/-!
Shallow embedding of the MF-Rename-Tool source file `image_copy_tool_qt.py`
(filename sanitizer, path index builder, resolver, output path allocator,
update check, and the batch run engine of `ImageTool.run`), together with
theorems settling the specification claims about it.

Machine-level conventions: Python strings are `String` / `List Char`,
`pandas` missing values (`NaN`) are `Option.none`, the filesystem seen by
`Path.exists` is the list of paths already present, and image files on disk
are records carrying the stem, suffix and `st_size` that the code inspects.
-/

namespace ImageToolQt

/-! ### String helpers modelling the Python primitives used by the tool -/

/-- ASCII lower-casing of a string, modelling Python `str.lower` (list-level
version of `String.toLower`, evaluable by the kernel). -/
def strToLower (s : String) : String := String.mk (s.data.map Char.toLower)

/-- Python `str.strip` on a character list: drop leading and trailing
whitespace. -/
def pyStrip (l : List Char) : List Char :=
  ((l.dropWhile Char.isWhitespace).reverse.dropWhile Char.isWhitespace).reverse

/-- Python `str.strip` on a string. -/
def pyStripStr (s : String) : String := String.mk (pyStrip s.data)

/-- The characters removed by the regular expression in `sanitize_filename`. -/
def badChars : List Char := ['<', '>', ':', '\"', '/', '\\', '|', '?', '*']

/-- Embedding of `sanitize_filename`: `re.sub(r'[<>:"/\\|?*]', '', name).strip()`,
i.e. delete every occurrence of a character of `badChars`, then strip
surrounding whitespace. -/
def sanitize_filename (s : String) : String :=
  String.mk (pyStrip (s.data.filter (fun c => !(badChars.contains c))))

/-- Embedding of `pathlib.Path(s).name`: the component after the last slash
(equal to `s` itself when `s` has no slash, as for the spreadsheet values the
tool reads). -/
def pathName (s : String) : String :=
  String.mk ((s.data.reverse.takeWhile (fun c => c ≠ '/')).reverse)

/-- Embedding of `pathlib.Path(name).stem` for a file name: the name without
its final extension; a dot in first or last position does not start an
extension, matching `pathlib`. -/
def pathStem (name : String) : String :=
  let cs := name.data
  let r := cs.reverse.takeWhile (fun c => c ≠ '.')
  if r.length = cs.length then name
  else if 0 < cs.length - r.length - 1 ∧ cs.length - r.length - 1 < cs.length - 1 then
    String.mk (cs.take (cs.length - r.length - 1))
  else name

/-- Little-endian base-10 digits of `n`, computed with explicit fuel so that
the kernel can evaluate it (any `fuel ≥ n` gives the digits of `n`). -/
def toDigitsRev (fuel n : Nat) : List Nat :=
  match fuel with
  | 0 => []
  | f + 1 => if n = 0 then [] else n % 10 :: toDigitsRev f (n / 10)

/-- Decimal rendering of a natural number, as produced by Python's
f-string interpolation of an `int`. -/
def natStr (n : Nat) : String :=
  if n = 0 then "0" else String.mk (((toDigitsRev n n).map Nat.digitChar).reverse)

/-- Decimal value of a character list; a left inverse of `natStr` used to
prove that distinct numbers render to distinct strings. -/
def decListVal (l : List Char) : Nat :=
  l.foldl (fun a c => a * 10 + (c.toNat - 48)) 0

/-! ### Lemmas about the string helpers -/

theorem digitChar_toNat_sub (d : Nat) (h : d < 10) : (Nat.digitChar d).toNat - 48 = d := by
  revert h
  revert d
  decide

theorem toDigitsRev_val : ∀ fuel n, n ≤ fuel →
    (toDigitsRev fuel n).foldr (fun d a => a * 10 + ((Nat.digitChar d).toNat - 48)) 0 = n := by
  intro fuel
  induction fuel with
  | zero =>
    intro n h
    have h0 : n = 0 := Nat.le_zero.mp h
    subst h0
    rfl
  | succ f ih =>
    intro n h
    unfold toDigitsRev
    by_cases h0 : n = 0
    · simp [h0]
    · have hdiv : n / 10 ≤ f := by
        have := Nat.div_lt_self (Nat.pos_of_ne_zero h0) (by norm_num : 1 < 10)
        omega
      simp only [h0, if_false, List.foldr_cons]
      rw [ih (n / 10) hdiv, digitChar_toNat_sub (n % 10) (Nat.mod_lt _ (by norm_num))]
      omega

theorem decListVal_natStr (n : Nat) : decListVal (natStr n).data = n := by
  unfold natStr decListVal
  by_cases h0 : n = 0
  · subst h0
    decide
  · simp only [h0, if_false]
    show (((toDigitsRev n n).map Nat.digitChar).reverse).foldl
        (fun a c => a * 10 + (c.toNat - 48)) 0 = n
    rw [List.foldl_reverse, List.foldr_map]
    exact toDigitsRev_val n n (Nat.le_refl n)

theorem natStr_injective : Function.Injective natStr := by
  intro m n h
  have h2 := congrArg (fun s => decListVal s.data) h
  simpa only [decListVal_natStr] using h2

theorem one_le_natStr_length (n : Nat) : 1 ≤ (natStr n).length := by
  unfold natStr
  by_cases h0 : n = 0
  · simp only [h0, if_true, if_pos]
    decide
  · simp only [h0, if_false]
    show 1 ≤ (((toDigitsRev n n).map Nat.digitChar).reverse).length
    cases n with
    | zero => exact absurd rfl h0
    | succ m => simp [toDigitsRev]

theorem dropWhile_idem {α : Type} (p : α → Bool) (l : List α) :
    (l.dropWhile p).dropWhile p = l.dropWhile p := by
  induction l with
  | nil => rfl
  | cons a t ih =>
    by_cases h : p a
    · simp [List.dropWhile_cons, h, ih]
    · simp [List.dropWhile_cons, h]

theorem dropWhile_self_of_append {α : Type} (p : α → Bool) (xs ys : List α)
    (h : (xs ++ ys).dropWhile p = xs ++ ys) : xs.dropWhile p = xs := by
  cases xs with
  | nil => rfl
  | cons a t =>
    by_cases hpa : p a
    · exfalso
      have h1 : ((a :: t) ++ ys).dropWhile p = (t ++ ys).dropWhile p := by
        simp [List.dropWhile_cons, hpa]
      rw [h1] at h
      have h3 := (List.dropWhile_sublist (l := t ++ ys) p).length_le
      rw [h] at h3
      simp at h3
    · simp [List.dropWhile_cons, hpa]

/-- Dropping from the right-hand end of a list. -/
def dropR {α : Type} (p : α → Bool) (l : List α) : List α :=
  (l.reverse.dropWhile p).reverse

theorem dropR_append {α : Type} (p : α → Bool) (l : List α) :
    l = dropR p l ++ (l.reverse.takeWhile p).reverse := by
  have h := List.takeWhile_append_dropWhile (p := p) (l := l.reverse)
  have h2 := congrArg List.reverse h
  simp only [List.reverse_append, List.reverse_reverse] at h2
  exact h2.symm

theorem trimL_dropR {α : Type} (p : α → Bool) (l : List α) (h : l.dropWhile p = l) :
    (dropR p l).dropWhile p = dropR p l := by
  apply dropWhile_self_of_append p (dropR p l) ((l.reverse.takeWhile p).reverse)
  rw [← dropR_append p l]
  exact h

theorem dropR_idem {α : Type} (p : α → Bool) (l : List α) :
    dropR p (dropR p l) = dropR p l := by
  unfold dropR
  rw [List.reverse_reverse, dropWhile_idem]

theorem pyStrip_eq_dropR (l : List Char) :
    pyStrip l = dropR Char.isWhitespace (l.dropWhile Char.isWhitespace) := rfl

theorem pyStrip_idem (l : List Char) : pyStrip (pyStrip l) = pyStrip l := by
  rw [pyStrip_eq_dropR, pyStrip_eq_dropR]
  rw [trimL_dropR _ _ (dropWhile_idem _ _), dropR_idem]

theorem mem_pyStrip {a : Char} {l : List Char} (h : a ∈ pyStrip l) : a ∈ l := by
  unfold pyStrip at h
  rw [List.mem_reverse] at h
  have h2 := (List.dropWhile_sublist _).subset h
  rw [List.mem_reverse] at h2
  exact (List.dropWhile_sublist _).subset h2

/-! ### Claim C8: the sanitizer -/

/-- Claim C8: `sanitize_filename` is a total deterministic function that is
idempotent, removes every occurrence of the characters `<>:"/\|?*`, and maps
whitespace-only input to the empty string. -/
theorem claim_C8 (s : String) :
    sanitize_filename (sanitize_filename s) = sanitize_filename s ∧
    (∀ c, c ∈ (sanitize_filename s).data → c ∉ badChars) ∧
    ((∀ c ∈ s.data, c.isWhitespace) → sanitize_filename s = "") := by
  refine ⟨?_, ?_, ?_⟩
  · have h1 : (pyStrip (s.data.filter (fun c => !(badChars.contains c)))).filter
        (fun c => !(badChars.contains c)) =
        pyStrip (s.data.filter (fun c => !(badChars.contains c))) := by
      apply List.filter_eq_self.mpr
      intro a ha
      exact (List.mem_filter.mp (mem_pyStrip ha)).2
    calc sanitize_filename (sanitize_filename s)
        = String.mk (pyStrip ((pyStrip (s.data.filter (fun c => !(badChars.contains c)))).filter
            (fun c => !(badChars.contains c)))) := rfl
      _ = String.mk (pyStrip (pyStrip (s.data.filter (fun c => !(badChars.contains c))))) := by
            rw [h1]
      _ = String.mk (pyStrip (s.data.filter (fun c => !(badChars.contains c)))) := by
            rw [pyStrip_idem]
      _ = sanitize_filename s := rfl
  · intro c hc hbad
    have h1 : c ∈ s.data.filter (fun c => !(badChars.contains c)) := mem_pyStrip hc
    have h2 := (List.mem_filter.mp h1).2
    rw [Bool.not_eq_true'] at h2
    have h3 : badChars.contains c = true := List.elem_iff.mpr hbad
    rw [h2] at h3
    exact Bool.noConfusion h3
  · intro hws
    have h1 : ∀ c ∈ s.data.filter (fun c => !(badChars.contains c)), Char.isWhitespace c := by
      intro c hc
      exact hws c (List.mem_filter.mp hc).1
    have h2 : (s.data.filter (fun c => !(badChars.contains c))).dropWhile Char.isWhitespace
        = [] := List.dropWhile_eq_nil_iff.mpr h1
    show String.mk (pyStrip (s.data.filter (fun c => !(badChars.contains c)))) = ""
    unfold pyStrip
    rw [h2]
    rfl

/-- Concrete instance of the whitespace-only clause of claim C8. -/
theorem claim_C8_witness :
    sanitize_filename (sanitize_filename "Mayflower Part<3>") =
      sanitize_filename "Mayflower Part<3>" ∧
    sanitize_filename " \t " = "" :=
  ⟨(claim_C8 "Mayflower Part<3>").1, (claim_C8 " \t ").2.2 (by decide)⟩

/-! ### Files on disk, the path index builder, and the resolver -/

/-- A regular file on disk as the tool observes it: its `pathlib` stem and
suffix, and its `stat().st_size`. -/
structure FSFile where
  stem : String
  suffix : String
  size : Nat
deriving DecidableEq, Repr

/-- Python `dict.setdefault(stem, []).append(file)` on an insertion-ordered
association list (Python dicts preserve insertion order). -/
def setdefaultAppend (idx : List (String × List FSFile)) (k : String) (f : FSFile) :
    List (String × List FSFile) :=
  match idx with
  | [] => [(k, [f])]
  | (k', v) :: rest =>
    if k' = k then (k', v ++ [f]) :: rest else (k', v) :: setdefaultAppend rest k f

/-- Dictionary lookup on the insertion-ordered association list. -/
def lookupIndex (idx : List (String × List FSFile)) (s : String) : Option (List FSFile) :=
  match idx with
  | [] => none
  | (k, v) :: rest => if k = s then some v else lookupIndex rest s

/-- Embedding of `ImageTool.build_image_index`: fold over the regular files
found by `base.rglob("*")` in enumeration order, grouping them by lower-cased
stem. -/
def build_image_index (files : List FSFile) : List (String × List FSFile) :=
  files.foldl (fun idx f => setdefaultAppend idx (strToLower f.stem) f) []

/-- The earliest element of maximal size: the head of a stable descending
sort by size. -/
def firstMax : List FSFile → Option FSFile
  | [] => none
  | x :: xs =>
    match firstMax xs with
    | none => some x
    | some y => if x.size < y.size then some y else some x

/-- Embedding of `ImageTool.find_image_file`: lower-case the stem; absent stem
gives `(None, None)`; otherwise the first candidate whose lower-cased suffix
equals the preferred extension, else the head of the stable descending sort of
the candidates by `st_size` as fallback. -/
def find_image_file (idx : List (String × List FSFile)) (preferred_ext stem : String) :
    Option FSFile × Option Bool :=
  match lookupIndex idx (strToLower stem) with
  | none => (none, none)
  | some candidates =>
    match candidates.find? (fun p => strToLower p.suffix == preferred_ext) with
    | some p => (some p, some false)
    | none =>
      match List.insertionSort (fun a b => b.size ≤ a.size) candidates with
      | f :: _ => (some f, some true)
      | [] => (none, none)

/-! ### Resolver lemmas -/

theorem find_image_file_eq (idx : List (String × List FSFile)) (preferred stem : String)
    (candidates : List FSFile)
    (hc : lookupIndex idx (strToLower stem) = some candidates) :
    find_image_file idx preferred stem =
      match candidates.find? (fun p => strToLower p.suffix == preferred) with
      | some p => (some p, some false)
      | none =>
        match List.insertionSort (fun a b => b.size ≤ a.size) candidates with
        | f :: _ => (some f, some true)
        | [] => (none, none) := by
  unfold find_image_file
  rw [hc]

theorem insertionSort_head_firstMax (l : List FSFile) :
    (List.insertionSort (fun a b => b.size ≤ a.size) l).head? = firstMax l := by
  induction l with
  | nil => rfl
  | cons x xs ih =>
    show (List.orderedInsert _ x (List.insertionSort _ xs)).head? = _
    cases hs : List.insertionSort (fun a b => b.size ≤ a.size) xs with
    | nil =>
      have hxs : xs = [] := by
        have hp := List.perm_insertionSort (fun a b : FSFile => b.size ≤ a.size) xs
        rw [hs] at hp
        exact (hp.symm.eq_nil)
      subst hxs
      rfl
    | cons y t =>
      rw [hs] at ih
      have hfm : firstMax xs = some y := by
        rw [← ih]
        rfl
      by_cases hxy : y.size ≤ x.size
      · have hnot : ¬ x.size < y.size := by omega
        simp [List.orderedInsert, hxy, firstMax, hfm, hnot]
      · have hlt : x.size < y.size := by omega
        simp [List.orderedInsert, hxy, firstMax, hfm, hlt]

theorem firstMax_cons_ne_none (x : FSFile) (xs : List FSFile) : firstMax (x :: xs) ≠ none := by
  unfold firstMax
  cases firstMax xs
  · simp
  · split
    · simp
    · split <;> simp

theorem firstMax_spec : ∀ (l : List FSFile) (f : FSFile), firstMax l = some f →
    (∀ g ∈ l, g.size ≤ f.size) ∧ ∃ l₁ l₂, l = l₁ ++ f :: l₂ ∧ ∀ g ∈ l₁, g.size < f.size := by
  intro l
  induction l with
  | nil =>
    intro f h
    exact absurd h (by simp [firstMax])
  | cons x xs ih =>
    intro f h
    unfold firstMax at h
    cases hfm : firstMax xs with
    | none =>
      rw [hfm] at h
      simp only [Option.some.injEq] at h
      have hxs : xs = [] := by
        cases xs with
        | nil => rfl
        | cons a b => exact absurd hfm (firstMax_cons_ne_none a b)
      subst hxs
      subst h
      exact ⟨by simp, [], [], by simp, by simp⟩
    | some y =>
      rw [hfm] at h
      obtain ⟨hy_bound, l₁, l₂, hdec, hlt⟩ := ih y hfm
      by_cases hxy : x.size < y.size
      · simp only [hxy, if_true, Option.some.injEq] at h
        subst h
        refine ⟨?_, x :: l₁, l₂, by simp [hdec], ?_⟩
        · intro g hg
          rcases List.mem_cons.mp hg with rfl | hg'
          · omega
          · exact hy_bound g hg'
        · intro g hg
          rcases List.mem_cons.mp hg with rfl | hg'
          · exact hxy
          · exact hlt g hg'
      · simp only [hxy, if_false, Option.some.injEq] at h
        subst h
        refine ⟨?_, [], xs, by simp, by simp⟩
        intro g hg
        rcases List.mem_cons.mp hg with rfl | hg'
        · exact Nat.le_refl _
        · exact Nat.le_trans (hy_bound g hg') (by omega)

/-- Well-formedness of an index: every stored candidate list is non-empty. -/
def IndexWF (idx : List (String × List FSFile)) : Prop := ∀ kv ∈ idx, kv.2 ≠ []

theorem setdefaultAppend_WF (k : String) (f : FSFile) :
    ∀ idx, IndexWF idx → IndexWF (setdefaultAppend idx k f) := by
  intro idx
  induction idx with
  | nil =>
    intro _ kv hkv
    simp only [setdefaultAppend, List.mem_singleton] at hkv
    subst hkv
    simp
  | cons hd rest ih =>
    intro h kv hkv
    obtain ⟨k', v⟩ := hd
    unfold setdefaultAppend at hkv
    by_cases hk : k' = k
    · simp only [hk, if_true, List.mem_cons] at hkv
      rcases hkv with rfl | hm
      · simp
      · exact h _ (List.mem_cons_of_mem _ hm)
    · simp only [hk, if_false, List.mem_cons] at hkv
      rcases hkv with rfl | hm
      · exact h _ (List.mem_cons_self _ _)
      · exact ih (fun kv' h' => h kv' (List.mem_cons_of_mem _ h')) _ hm

theorem lookupIndex_mem : ∀ (idx : List (String × List FSFile)) (s : String) (l : List FSFile),
    lookupIndex idx s = some l → (s, l) ∈ idx := by
  intro idx
  induction idx with
  | nil =>
    intro s l h
    simp [lookupIndex] at h
  | cons hd rest ih =>
    intro s l h
    obtain ⟨k, v⟩ := hd
    unfold lookupIndex at h
    by_cases hk : k = s
    · subst hk
      simp only [if_true, Option.some.injEq] at h
      subst h
      exact List.mem_cons_self _ _
    · simp only [hk, if_false] at h
      exact List.mem_cons_of_mem _ (ih s l h)

theorem build_image_index_WF (files : List FSFile) : IndexWF (build_image_index files) := by
  unfold build_image_index
  suffices h : ∀ (fs : List FSFile) init, IndexWF init →
      IndexWF (fs.foldl (fun idx f => setdefaultAppend idx (strToLower f.stem) f) init) by
    exact h files [] (fun kv hkv => absurd hkv (List.not_mem_nil kv))
  intro fs
  induction fs with
  | nil =>
    intro init h
    exact h
  | cons a t ih =>
    intro init h
    exact ih _ (setdefaultAppend_WF _ _ _ h)

/-! ### Claims C5, C6, C10: the resolver and the index invariant -/

/-- Claim C5: with the (always lower-case) preferred extension, an absent stem
yields `(none, none)`, and when some candidate's extension case-insensitively
equals the preferred extension, the resolver returns the first such candidate
in enumeration order with `is_fallback = false`. -/
theorem claim_C5 (idx : List (String × List FSFile)) (preferred stem : String)
    (hlow : strToLower preferred = preferred) :
    (lookupIndex idx (strToLower stem) = none →
      find_image_file idx preferred stem = (none, none)) ∧
    (∀ candidates, lookupIndex idx (strToLower stem) = some candidates →
      ∀ p, p ∈ candidates → strToLower p.suffix = strToLower preferred →
      ∃ q l₁ l₂, find_image_file idx preferred stem = (some q, some false) ∧
        strToLower q.suffix = strToLower preferred ∧
        candidates = l₁ ++ q :: l₂ ∧
        ∀ x ∈ l₁, strToLower x.suffix ≠ strToLower preferred) := by
  constructor
  · intro h
    unfold find_image_file
    rw [h]
  · intro candidates hc p hp hpe
    cases hf : candidates.find? (fun p => strToLower p.suffix == preferred) with
    | none =>
      exfalso
      rw [List.find?_eq_none] at hf
      apply hf p hp
      rw [hlow] at hpe
      simp [hpe]
    | some q =>
      have hgoal : find_image_file idx preferred stem = (some q, some false) := by
        rw [find_image_file_eq idx preferred stem candidates hc, hf]
      rw [List.find?_eq_some] at hf
      obtain ⟨hpred, l₁, l₂, hdec, hprev⟩ := hf
      simp only [beq_iff_eq] at hpred
      refine ⟨q, l₁, l₂, hgoal, ?_, hdec, ?_⟩
      · rw [hpred, hlow]
      · intro x hx hxe
        have hfx := hprev x hx
        simp only [Bool.not_eq_true', beq_eq_false_iff_ne, ne_eq] at hfx
        rw [hlow] at hxe
        exact hfx hxe

/-- Concrete instance of claim C5: a stem with a `.png` and a `.jpg` candidate
resolves to the first `.jpg` candidate with `is_fallback = false`. -/
theorem claim_C5_witness :
    ∃ q l₁ l₂,
      find_image_file [("a", [⟨"a", ".png", 1⟩, ⟨"a", ".jpg", 2⟩])] ".jpg" "A" =
        (some q, some false) ∧
      strToLower q.suffix = strToLower ".jpg" ∧
      [(⟨"a", ".png", 1⟩ : FSFile), ⟨"a", ".jpg", 2⟩] = l₁ ++ q :: l₂ ∧
      ∀ x ∈ l₁, strToLower x.suffix ≠ strToLower ".jpg" :=
  (claim_C5 [("a", [⟨"a", ".png", 1⟩, ⟨"a", ".jpg", 2⟩])] ".jpg" "A" (by decide)).2
    [⟨"a", ".png", 1⟩, ⟨"a", ".jpg", 2⟩] (by decide) ⟨"a", ".jpg", 2⟩ (by decide) (by decide)

/-- Claim C6: for a present stem with no preferred-extension candidate, the
resolver returns the candidate of maximal file size, ties broken by first-seen
enumeration order, with `is_fallback = true`. -/
theorem claim_C6 (idx : List (String × List FSFile)) (preferred stem : String)
    (candidates : List FSFile)
    (hc : lookupIndex idx (strToLower stem) = some candidates)
    (hne : candidates ≠ [])
    (hnopref : ∀ p ∈ candidates, strToLower p.suffix ≠ preferred) :
    ∃ f l₁ l₂, find_image_file idx preferred stem = (some f, some true) ∧
      candidates = l₁ ++ f :: l₂ ∧
      (∀ g ∈ candidates, g.size ≤ f.size) ∧
      (∀ g ∈ l₁, g.size < f.size) := by
  have hf : candidates.find? (fun p => strToLower p.suffix == preferred) = none := by
    rw [List.find?_eq_none]
    intro x hx
    simp only [beq_iff_eq]
    exact hnopref x hx
  cases hs : List.insertionSort (fun a b => b.size ≤ a.size) candidates with
  | nil =>
    exfalso
    have hp := List.perm_insertionSort (fun a b : FSFile => b.size ≤ a.size) candidates
    rw [hs] at hp
    exact hne hp.symm.eq_nil
  | cons f t =>
    have hhead : firstMax candidates = some f := by
      rw [← insertionSort_head_firstMax, hs]
      rfl
    obtain ⟨hbound, l₁, l₂, hdec, hlt⟩ := firstMax_spec candidates f hhead
    refine ⟨f, l₁, l₂, ?_, hdec, hbound, hlt⟩
    rw [find_image_file_eq idx preferred stem candidates hc, hf, hs]

/-- Concrete instance of claim C6: among fallback candidates of sizes 1, 5, 5
the resolver picks the first size-5 candidate with `is_fallback = true`. -/
theorem claim_C6_witness :
    ∃ f l₁ l₂,
      find_image_file [("a", [⟨"a", ".png", 1⟩, ⟨"a", ".gif", 5⟩, ⟨"a", ".bmp", 5⟩])]
          ".jpg" "a" = (some f, some true) ∧
      [(⟨"a", ".png", 1⟩ : FSFile), ⟨"a", ".gif", 5⟩, ⟨"a", ".bmp", 5⟩] = l₁ ++ f :: l₂ ∧
      (∀ g ∈ [(⟨"a", ".png", 1⟩ : FSFile), ⟨"a", ".gif", 5⟩, ⟨"a", ".bmp", 5⟩],
        g.size ≤ f.size) ∧
      (∀ g ∈ l₁, g.size < f.size) :=
  claim_C6 [("a", [⟨"a", ".png", 1⟩, ⟨"a", ".gif", 5⟩, ⟨"a", ".bmp", 5⟩])] ".jpg" "a"
    [⟨"a", ".png", 1⟩, ⟨"a", ".gif", 5⟩, ⟨"a", ".bmp", 5⟩] (by decide) (by decide) (by decide)

/-- Claim C10: every index the builder produces maps each present stem to a
non-empty candidate list, so the resolver's trailing not-found return is
unreachable for present stems: it always returns an actual path and a boolean
fallback flag. -/
theorem claim_C10 (files : List FSFile) (preferred stem : String) (l : List FSFile)
    (h : lookupIndex (build_image_index files) (strToLower stem) = some l) :
    l ≠ [] ∧ ∃ p b, find_image_file (build_image_index files) preferred stem = (some p, some b) := by
  have hne : l ≠ [] := build_image_index_WF files _ (lookupIndex_mem _ _ _ h)
  refine ⟨hne, ?_⟩
  cases hf : l.find? (fun p => strToLower p.suffix == preferred) with
  | some p =>
    exact ⟨p, false, by rw [find_image_file_eq _ _ _ _ h, hf]⟩
  | none =>
    cases hs : List.insertionSort (fun a b => b.size ≤ a.size) l with
    | nil =>
      exfalso
      have hp := List.perm_insertionSort (fun a b : FSFile => b.size ≤ a.size) l
      rw [hs] at hp
      exact hne hp.symm.eq_nil
    | cons f t =>
      exact ⟨f, true, by rw [find_image_file_eq _ _ _ _ h, hf, hs]⟩

/-- Concrete instance of claim C10: a one-file index resolves its stem to an
actual path with a boolean fallback flag. -/
theorem claim_C10_witness :
    [(⟨"A", ".png", 3⟩ : FSFile)] ≠ [] ∧
    ∃ p b, find_image_file (build_image_index [⟨"A", ".png", 3⟩]) ".jpg" "a" =
      (some p, some b) :=
  claim_C10 [⟨"A", ".png", 3⟩] ".jpg" "a" [⟨"A", ".png", 3⟩] (by decide)

/-! ### The output path allocator -/

/-- The i-th candidate destination tried by `resolve_output_path`:
`dir/base.ext` first, then `dir/base_1.ext`, `dir/base_2.ext`, and so on. -/
def outCand (dir base ext : String) : Nat → String
  | 0 => dir ++ "/" ++ base ++ ext
  | i + 1 => dir ++ "/" ++ base ++ "_" ++ natStr (i + 1) ++ ext

/-- The allocator's while-loop: return the first index at or after `start`
whose candidate is unoccupied, examining at most `fuel` indices. -/
def findFreeIdx (occupied : Nat → Bool) (start fuel : Nat) : Nat :=
  match fuel with
  | 0 => start
  | f + 1 => if occupied start then findFreeIdx occupied (start + 1) f else start

/-- Embedding of `ImageTool.resolve_output_path` over a filesystem modelled as
the list of paths that exist: sanitize the base name, then return the first
candidate path that does not exist. Examining `fs.length + 1` indices always
reaches a free candidate (the candidates are pairwise distinct strings), so
this terminating search computes exactly what the unbounded Python loop
returns. -/
def resolve_output_path (fs : List String) (out_dir base_name ext : String) : String :=
  let base := sanitize_filename base_name
  outCand out_dir base ext
    (findFreeIdx (fun i => fs.contains (outCand out_dir base ext i)) 0 (fs.length + 1))

/-! ### Allocator lemmas -/

theorem string_eq_of_data {s t : String} (h : s.data = t.data) : s = t := by
  cases s
  cases t
  exact congrArg String.mk h

theorem outCand_injective (dir base ext : String) : Function.Injective (outCand dir base ext) := by
  intro i j h
  match i, j with
  | 0, 0 => rfl
  | 0, j + 1 =>
    exfalso
    have hl := congrArg String.length h
    simp only [outCand, String.length_append] at hl
    have := one_le_natStr_length (j + 1)
    omega
  | i + 1, 0 =>
    exfalso
    have hl := congrArg String.length h
    simp only [outCand, String.length_append] at hl
    have := one_le_natStr_length (i + 1)
    omega
  | i + 1, j + 1 =>
    have hd := congrArg String.data h
    simp only [outCand, String.data_append, List.append_assoc] at hd
    have h1 := List.append_cancel_left hd
    have h2 := List.append_cancel_left h1
    have h3 := List.append_cancel_left h2
    have h4 := List.append_cancel_left h3
    have h5 := List.append_cancel_right h4
    have h6 := natStr_injective (string_eq_of_data h5)
    omega

theorem exists_outCand_free (fs : List String) (dir base ext : String) :
    ∃ i ≤ fs.length, outCand dir base ext i ∉ fs := by
  by_contra hc
  push_neg at hc
  have hsub : (Finset.range (fs.length + 1)).image (outCand dir base ext) ⊆ fs.toFinset := by
    intro x hx
    rw [Finset.mem_image] at hx
    obtain ⟨i, hi, rfl⟩ := hx
    rw [Finset.mem_range] at hi
    exact List.mem_toFinset.mpr (hc i (by omega))
  have hcard := Finset.card_le_card hsub
  rw [Finset.card_image_of_injective _ (outCand_injective dir base ext),
    Finset.card_range] at hcard
  have hle := fs.toFinset_card_le
  omega

theorem findFreeIdx_ge (occ : Nat → Bool) : ∀ fuel start, start ≤ findFreeIdx occ start fuel := by
  intro fuel
  induction fuel with
  | zero =>
    intro start
    exact Nat.le_refl _
  | succ f ih =>
    intro start
    unfold findFreeIdx
    by_cases h : occ start
    · simp only [h, if_true]
      exact Nat.le_trans (Nat.le_succ _) (ih (start + 1))
    · simp [h]

theorem findFreeIdx_spec (occ : Nat → Bool) :
    ∀ fuel start, (∃ i, i < fuel ∧ occ (start + i) = false) →
      occ (findFreeIdx occ start fuel) = false ∧
      ∀ j, start ≤ j → j < findFreeIdx occ start fuel → occ j = true := by
  intro fuel
  induction fuel with
  | zero =>
    intro start h
    obtain ⟨i, hi, _⟩ := h
    omega
  | succ f ih =>
    intro start h
    by_cases hocc : occ start
    · have hred : findFreeIdx occ start (f + 1) = findFreeIdx occ (start + 1) f := by
        conv_lhs => unfold findFreeIdx
        rw [if_pos hocc]
      rw [hred]
      have h2 : ∃ i, i < f ∧ occ (start + 1 + i) = false := by
        obtain ⟨i, hi, hofree⟩ := h
        cases i with
        | zero =>
          rw [Nat.add_zero] at hofree
          rw [hofree] at hocc
          exact Bool.noConfusion hocc
        | succ i' =>
          refine ⟨i', by omega, ?_⟩
          rw [show start + 1 + i' = start + (i' + 1) by omega]
          exact hofree
      obtain ⟨hfree, hmin⟩ := ih (start + 1) h2
      refine ⟨hfree, ?_⟩
      intro j hj1 hj2
      by_cases hje : j = start
      · subst hje
        exact hocc
      · exact hmin j (by omega) hj2
    · rw [Bool.not_eq_true] at hocc
      have hred : findFreeIdx occ start (f + 1) = start := by
        unfold findFreeIdx
        rw [if_neg (by simp [hocc])]
      rw [hred]
      exact ⟨hocc, fun j hj1 hj2 => by omega⟩

/-! ### Claim C7: the output path allocator -/

/-- Claim C7: the allocator never returns an existing path, is deterministic
when nothing is written, and once the unsuffixed `name.ext` exists the next
call returns `name_1.ext` (suffixes tried in increasing order). -/
theorem claim_C7 (fs : List String) (dir name ext : String) :
    resolve_output_path fs dir name ext ∉ fs ∧
    resolve_output_path fs dir name ext = resolve_output_path fs dir name ext ∧
    (outCand dir (sanitize_filename name) ext 0 ∈ fs →
      outCand dir (sanitize_filename name) ext 1 ∉ fs →
      resolve_output_path fs dir name ext = outCand dir (sanitize_filename name) ext 1) := by
  have hcont : ∀ x : String, fs.contains x = false ↔ x ∉ fs := by
    intro x
    rw [show fs.contains x = fs.elem x from rfl, ← Bool.not_eq_true]
    exact not_congr List.elem_iff
  obtain ⟨i0, hle0, hni0⟩ := exists_outCand_free fs dir (sanitize_filename name) ext
  have hex : ∃ i, i < fs.length + 1 ∧
      (fun i => fs.contains (outCand dir (sanitize_filename name) ext i)) (0 + i) = false :=
    ⟨i0, by omega, by simpa using (hcont _).mpr hni0⟩
  obtain ⟨hfree, hmin⟩ := findFreeIdx_spec
    (fun i => fs.contains (outCand dir (sanitize_filename name) ext i)) (fs.length + 1) 0 hex
  refine ⟨?_, rfl, ?_⟩
  · exact (hcont _).mp hfree
  · intro h0 h1
    have hocc0 : fs.contains (outCand dir (sanitize_filename name) ext 0) = true := by
      cases hb : fs.contains (outCand dir (sanitize_filename name) ext 0)
      · exact absurd h0 ((hcont _).mp hb)
      · rfl
    have hocc1 : fs.contains (outCand dir (sanitize_filename name) ext 1) = false :=
      (hcont _).mpr h1
    have hkval : findFreeIdx
        (fun i => fs.contains (outCand dir (sanitize_filename name) ext i)) 0
        (fs.length + 1) = 1 := by
      by_cases he0 : findFreeIdx
          (fun i => fs.contains (outCand dir (sanitize_filename name) ext i)) 0
          (fs.length + 1) = 0
      · exfalso
        rw [he0] at hfree
        simp only [hocc0] at hfree
        exact Bool.noConfusion hfree
      · by_cases he1 : findFreeIdx
            (fun i => fs.contains (outCand dir (sanitize_filename name) ext i)) 0
            (fs.length + 1) ≤ 1
        · omega
        · exfalso
          have hj := hmin 1 (by omega) (by omega)
          simp only [hocc1] at hj
          exact Bool.noConfusion hj
    show outCand dir (sanitize_filename name) ext
        (findFreeIdx (fun i => fs.contains (outCand dir (sanitize_filename name) ext i)) 0
          (fs.length + 1)) = outCand dir (sanitize_filename name) ext 1
    rw [hkval]

/-- Concrete instance of claim C7: with `out/img.jpg` already on disk, the
allocator returns the `_1`-suffixed candidate. -/
theorem claim_C7_witness :
    outCand "out" (sanitize_filename "img") ".jpg" 0 ∈ ["out/img.jpg"] ∧
    outCand "out" (sanitize_filename "img") ".jpg" 1 ∉ ["out/img.jpg"] ∧
    resolve_output_path ["out/img.jpg"] "out" "img" ".jpg" =
      outCand "out" (sanitize_filename "img") ".jpg" 1 := by
  have h0 : outCand "out" (sanitize_filename "img") ".jpg" 0 ∈ ["out/img.jpg"] := by decide
  have h1 : outCand "out" (sanitize_filename "img") ".jpg" 1 ∉ ["out/img.jpg"] := by decide
  exact ⟨h0, h1, (claim_C7 ["out/img.jpg"] "out" "img" ".jpg").2.2 h0 h1⟩

/-! ### The update check and the constructor tail -/

/-- The running application version (`APP_VERSION`). -/
def APP_VERSION : String := "1.0.0"

/-- Embedding of `check_for_updates`: `response` is the HTTP body when the
request succeeds and `none` when any exception occurs (offline, timeout, HTTP
error status). A stripped body differing from the running version is
returned; every other case yields `None`. -/
def check_for_updates (response : Option String) : Option String :=
  match response with
  | none => none
  | some txt =>
    let latest_version := pyStripStr txt
    if latest_version ≠ APP_VERSION then some latest_version else none

/-- What the tail of `ImageTool.__init__` does after the update check. -/
inductive InitOutcome
  | openedBrowser
  | noBrowser
  | unboundLocalError
deriving DecidableEq, Repr

/-- Embedding of the tail of `ImageTool.__init__`: `reply` is assigned only
inside `if latest:`, but the comparison `if reply == QMessageBox.Yes:` runs
unconditionally afterwards, so when `latest` is falsy the comparison reads
the never-assigned local `reply` and raises `UnboundLocalError`. -/
def init_update_tail (latest : Option String) (userSaysYes : Bool) : InitOutcome :=
  match latest with
  | some _ => if userSaysYes then InitOutcome.openedBrowser else InitOutcome.noBrowser
  | none => InitOutcome.unboundLocalError

/-! ### Claim C4: the constructor crashes when no update is available -/

/-- Claim C4: whenever the update check reports no newer version — in
particular in every offline or network-failure case, where
`check_for_updates` returns `None` — the constructor evaluates the reply
comparison with `reply` never assigned, so initialization raises an
unbound-variable error instead of completing. -/
theorem claim_C4 (response : Option String) (userSaysYes : Bool)
    (h : check_for_updates response = none) :
    init_update_tail (check_for_updates response) userSaysYes =
      InitOutcome.unboundLocalError ∧
    check_for_updates none = none := by
  rw [h]
  exact ⟨rfl, rfl⟩

/-- Concrete instance of claim C4: the offline case crashes the constructor. -/
theorem claim_C4_witness :
    init_update_tail (check_for_updates none) true = InitOutcome.unboundLocalError ∧
    check_for_updates none = none :=
  claim_C4 none true rfl

/-! ### The batch run engine -/

/-- The fallback policy (`self.fallback_mode`): `"none"`, `"copy"` or
`"convert"`. -/
inductive FallbackMode
  | fbNone
  | fbCopy
  | fbConvert
deriving DecidableEq, Repr

/-- One spreadsheet row as the run loop reads it: the image-path cell and the
rename cell; `Option.none` models a pandas missing value (`pd.isna`). -/
structure Row where
  raw_path : Option String
  rename_val : Option String
deriving DecidableEq, Repr

/-- A file produced in the output directory. -/
inductive WriteAction
  | copyFile (src : FSFile) (dest : String)
  | convertFile (src : FSFile) (dest : String)
deriving DecidableEq, Repr

/-- The run configuration captured from the UI when Run is pressed:
`rename_enabled` is whether a rename column is selected, plus the preferred
extension, fallback policy, preview flag, output directory, and the prebuilt
image index. -/
structure Config where
  rename_enabled : Bool
  preferred_ext : String
  fallback_mode : FallbackMode
  preview : Bool
  out_dir : String
  index : List (String × List FSFile)

/-- Mutable state of one run: the four counters, the unmatched rows in
order, the files written so far, the filesystem contents (for the
allocator's existence checks), and `convert_all_mode`. -/
structure RunState where
  copied_original : Nat
  copied_renamed : Nat
  converted_original : Nat
  converted_renamed : Nat
  not_found_rows : List Row
  written : List WriteAction
  fs : List String
  convert_all_mode : Bool
deriving DecidableEq, Repr

/-- `Path(str(raw)).name` then `Path(filename).stem.lower()`. -/
def original_stem_of (raw : String) : String := strToLower (pathStem (pathName raw))

/-- The output stem of a row: when renaming is enabled and the rename cell is
non-missing and non-blank after stripping, the sanitized stripped value;
otherwise the original stem. -/
def output_stem_of (cfg : Config) (row : Row) (original_stem : String) : String :=
  if cfg.rename_enabled then
    match row.rename_val with
    | some v =>
      if pyStripStr v ≠ "" then sanitize_filename (pyStripStr v) else original_stem
    | none => original_stem
  else original_stem

/-- The action taken on a resolved fallback source after the dialog logic:
convert, copy as-is, or mark not found, bumping the counter of the bucket
chosen by `rename_enabled`. -/
def fallbackAction (cfg : Config) (st : RunState) (row : Row) (src : FSFile) (dest : String) :
    RunState :=
  match cfg.fallback_mode with
  | FallbackMode.fbConvert =>
    let st1 := { st with
      written := st.written ++ [WriteAction.convertFile src dest],
      fs := dest :: st.fs }
    if cfg.rename_enabled then { st1 with converted_renamed := st1.converted_renamed + 1 }
    else { st1 with converted_original := st1.converted_original + 1 }
  | FallbackMode.fbCopy =>
    let st1 := { st with
      written := st.written ++ [WriteAction.copyFile src dest],
      fs := dest :: st.fs }
    if cfg.rename_enabled then { st1 with copied_renamed := st1.copied_renamed + 1 }
    else { st1 with copied_original := st1.copied_original + 1 }
  | FallbackMode.fbNone => { st with not_found_rows := st.not_found_rows ++ [row] }

/-- One iteration of the row loop of `ImageTool.run`. `dlg` is the value
`ConversionDialog.exec` would return if the dialog were shown (1 convert,
2 convert-all, 0 skip, -1 cancel-all). `Sum.inr` means the loop `return`s
immediately (cancel all); `Sum.inl` means it continues with the new state. -/
def processRow (cfg : Config) (st : RunState) (row : Row) (dlg : Int) :
    RunState ⊕ RunState :=
  match row.raw_path with
  | none => Sum.inl { st with not_found_rows := st.not_found_rows ++ [row] }
  | some raw =>
    match find_image_file cfg.index cfg.preferred_ext (original_stem_of raw) with
    | (some src, was_fb) =>
      let dest := resolve_output_path st.fs cfg.out_dir
        (output_stem_of cfg row (original_stem_of raw)) cfg.preferred_ext
      if was_fb ≠ some true then
        let st1 := { st with
          written := st.written ++ [WriteAction.copyFile src dest],
          fs := dest :: st.fs }
        Sum.inl (if cfg.rename_enabled then { st1 with copied_renamed := st1.copied_renamed + 1 }
          else { st1 with copied_original := st1.copied_original + 1 })
      else
        if cfg.fallback_mode = FallbackMode.fbConvert ∨
            cfg.fallback_mode = FallbackMode.fbCopy then
          if cfg.fallback_mode = FallbackMode.fbConvert ∧ st.convert_all_mode = false ∧
              cfg.preview then
            if dlg = -1 then Sum.inr st
            else if dlg = 0 then Sum.inl st
            else if dlg = 2 then
              Sum.inl (fallbackAction cfg { st with convert_all_mode := true } row src dest)
            else Sum.inl (fallbackAction cfg st row src dest)
          else Sum.inl (fallbackAction cfg st row src dest)
        else Sum.inl { st with not_found_rows := st.not_found_rows ++ [row] }
    | (none, _) => Sum.inl { st with not_found_rows := st.not_found_rows ++ [row] }

/-- The row loop: process rows in order, stopping immediately when a row
cancels; the boolean records whether the run was cancelled. -/
def runLoop (cfg : Config) : RunState → List (Row × Int) → RunState × Bool
  | st, [] => (st, false)
  | st, (row, dlg) :: rest =>
    match processRow cfg st row dlg with
    | Sum.inl st1 => runLoop cfg st1 rest
    | Sum.inr st1 => (st1, true)

/-- The final counters the run emits in its summary log and dialog. -/
structure Summary where
  copied_original : Nat
  copied_renamed : Nat
  converted_original : Nat
  converted_renamed : Nat
  not_found : Nat
deriving DecidableEq, Repr

/-- Initial run state over the given filesystem contents. -/
def initState (fs0 : List String) : RunState :=
  { copied_original := 0, copied_renamed := 0, converted_original := 0,
    converted_renamed := 0, not_found_rows := [], written := [], fs := fs0,
    convert_all_mode := false }

/-- Result of a whole run: the final state, whether the run was cancelled,
the unmatched-rows report artifact, and the emitted summary counters. -/
structure RunResult where
  state : RunState
  cancelled : Bool
  report : Option (List Row)
  summary : Option Summary
deriving DecidableEq, Repr

/-- Finalization of `ImageTool.run`: a cancelled run `return`s before this
code; otherwise both the unmatched-rows report and the summary counters are
produced only inside `if not_found_rows:`. -/
def finalizeRun (p : RunState × Bool) : RunResult :=
  if p.2 then { state := p.1, cancelled := true, report := none, summary := none }
  else
    match p.1.not_found_rows with
    | [] => { state := p.1, cancelled := false, report := none, summary := none }
    | _ :: _ =>
      {
        state := p.1,
        cancelled := false,
        report := some p.1.not_found_rows,
        summary := some {
          copied_original := p.1.copied_original,
          copied_renamed := p.1.copied_renamed,
          converted_original := p.1.converted_original,
          converted_renamed := p.1.converted_renamed,
          not_found := p.1.not_found_rows.length } }

/-- Embedding of one invocation of `ImageTool.run` after validation and index
building: iterate the rows, then finalize. -/
def run (cfg : Config) (fs0 : List String) (rows : List (Row × Int)) : RunResult :=
  finalizeRun (runLoop cfg (initState fs0) rows)

/-! ### Claim C2: rows with a missing image path -/

/-- Claim C2 (amended): a row whose image-path cell is missing (`pd.isna`,
modelled by `none`) is recorded as not-found and the loop continues without
calling the Resolver and without writing a file; rows whose image-path cell
is a blank or whitespace-only string are NOT caught by this check and
proceed to the Resolver (see the counterexample). -/
theorem claim_C2_amended (cfg : Config) (st : RunState) (row : Row) (dlg : Int)
    (h : row.raw_path = none) :
    processRow cfg st row dlg =
      Sum.inl { st with not_found_rows := st.not_found_rows ++ [row] } := by
  unfold processRow
  rw [h]

/-- Concrete instance of the amended claim C2. -/
theorem claim_C2_witness :
    processRow
        { rename_enabled := false, preferred_ext := ".jpg",
          fallback_mode := FallbackMode.fbConvert, preview := false, out_dir := "out",
          index := [] }
        (initState []) { raw_path := none, rename_val := none } 1 =
      Sum.inl { initState [] with
        not_found_rows := [{ raw_path := none, rename_val := none }] } :=
  claim_C2_amended _ (initState []) { raw_path := none, rename_val := none } 1 rfl

/-- Counterexample to claim C2 as stated: a row whose image-path cell is the
whitespace-only string three-spaces is neither recorded as not-found nor kept
away from the Resolver — here the Resolver finds a matching file and the
engine copies it. -/
theorem claim_C2_counterexample :
    let r := (processRow
        { rename_enabled := false, preferred_ext := ".jpg",
          fallback_mode := FallbackMode.fbNone, preview := false, out_dir := "out",
          index := [("   ", [{ stem := "   ", suffix := ".jpg", size := 4 }])] }
        (initState []) { raw_path := some "   ", rename_val := none } 1).elim id id
    r.written.length = 1 ∧ r.not_found_rows = [] ∧ r.copied_original = 1 := by
  decide

/-! ### Claim C9: fallback policy none -/

/-- Claim C9: when the fallback policy is `none` and a row resolves only to a
fallback source, the engine records the row as not-found, writes no file, and
leaves all four copy/convert counters unchanged (the state changes only by
appending the row to the unmatched list). -/
theorem claim_C9 (cfg : Config) (st : RunState) (row : Row) (dlg : Int) (raw : String)
    (src : FSFile)
    (hmode : cfg.fallback_mode = FallbackMode.fbNone)
    (hraw : row.raw_path = some raw)
    (hfind : find_image_file cfg.index cfg.preferred_ext (original_stem_of raw) =
      (some src, some true)) :
    processRow cfg st row dlg =
      Sum.inl { st with not_found_rows := st.not_found_rows ++ [row] } := by
  simp [processRow, hraw, hfind, hmode]

/-- Concrete instance of claim C9: with policy `none` and only a `.png`
candidate for a `.jpg` run, the row lands in the unmatched list and nothing
else changes. -/
theorem claim_C9_witness :
    processRow
        { rename_enabled := false, preferred_ext := ".jpg",
          fallback_mode := FallbackMode.fbNone, preview := true, out_dir := "out",
          index := [("a", [{ stem := "a", suffix := ".png", size := 7 }])] }
        (initState []) { raw_path := some "a.jpg", rename_val := none } 1 =
      Sum.inl { initState [] with
        not_found_rows := [{ raw_path := some "a.jpg", rename_val := none }] } :=
  claim_C9 _ (initState []) { raw_path := some "a.jpg", rename_val := none } 1 "a.jpg"
    { stem := "a", suffix := ".png", size := 7 } rfl rfl (by decide)

/-! ### Claim C3: finalization -/

/-- What finalization actually does in every non-cancelled run: the
unmatched-rows report is written iff at least one row went unmatched,
preserving the unmatched rows exactly, and the summary counters are emitted
only in that same case, because the whole finalize block sits inside
`if not_found_rows:`. -/
theorem finalizeRun_report_summary (cfg : Config) (fs0 : List String) (rows : List (Row × Int))
    (h : (run cfg fs0 rows).cancelled = false) :
    ((run cfg fs0 rows).state.not_found_rows = [] →
      (run cfg fs0 rows).report = none ∧ (run cfg fs0 rows).summary = none) ∧
    ((run cfg fs0 rows).state.not_found_rows ≠ [] →
      (run cfg fs0 rows).report = some (run cfg fs0 rows).state.not_found_rows ∧
      (run cfg fs0 rows).summary = some {
        copied_original := (run cfg fs0 rows).state.copied_original,
        copied_renamed := (run cfg fs0 rows).state.copied_renamed,
        converted_original := (run cfg fs0 rows).state.converted_original,
        converted_renamed := (run cfg fs0 rows).state.converted_renamed,
        not_found := (run cfg fs0 rows).state.not_found_rows.length }) := by
  unfold run at h ⊢
  rcases hp : runLoop cfg (initState fs0) rows with ⟨st, c⟩
  rw [hp] at h
  cases c with
  | true => simp [finalizeRun] at h
  | false =>
    cases hnf : st.not_found_rows with
    | nil =>
      refine ⟨?_, ?_⟩
      · intro _
        refine ⟨?_, ?_⟩ <;> simp [finalizeRun, hnf]
      · intro hne
        simp [finalizeRun, hnf] at hne
    | cons r t =>
      refine ⟨?_, ?_⟩
      · intro h0
        simp [finalizeRun, hnf] at h0
      · intro _
        refine ⟨?_, ?_⟩ <;> simp [finalizeRun, hnf]

/-- Concrete instance of `finalizeRun_report_summary`: a run with one
unmatched row writes the report with that row and emits the summary. -/
theorem finalizeRun_report_summary_instance :
    let r := run
      { rename_enabled := false, preferred_ext := ".jpg",
        fallback_mode := FallbackMode.fbConvert, preview := false, out_dir := "out",
        index := [] }
      [] [({ raw_path := none, rename_val := none }, 1)]
    r.report = some r.state.not_found_rows ∧
    r.summary = some {
      copied_original := r.state.copied_original,
      copied_renamed := r.state.copied_renamed,
      converted_original := r.state.converted_original,
      converted_renamed := r.state.converted_renamed,
      not_found := r.state.not_found_rows.length } :=
  (finalizeRun_report_summary
    { rename_enabled := false, preferred_ext := ".jpg",
      fallback_mode := FallbackMode.fbConvert, preview := false, out_dir := "out",
      index := [] }
    [] [({ raw_path := none, rename_val := none }, 1)] (by decide)).2 (by decide)

/-- Claim C3: evaluation of the engine at the failing input. A completed,
non-cancelled run in which every row matched (one file copied) emits neither
the summary counters nor the report — the claim's "emits the final counters
regardless" fails on the code, whose finalize block (including the summary)
is guarded by `if not_found_rows:` even though the message it builds contains
a conditional that is only meaningful when the block can run with no
unmatched rows. -/
theorem claim_C3 :
    (run
      { rename_enabled := false, preferred_ext := ".jpg",
        fallback_mode := FallbackMode.fbConvert, preview := false, out_dir := "out",
        index := [("a", [{ stem := "a", suffix := ".jpg", size := 5 }])] }
      [] [({ raw_path := some "a.jpg", rename_val := none }, 1)]).cancelled = false ∧
    (run
      { rename_enabled := false, preferred_ext := ".jpg",
        fallback_mode := FallbackMode.fbConvert, preview := false, out_dir := "out",
        index := [("a", [{ stem := "a", suffix := ".jpg", size := 5 }])] }
      [] [({ raw_path := some "a.jpg", rename_val := none }, 1)]).state.copied_original = 1 ∧
    (run
      { rename_enabled := false, preferred_ext := ".jpg",
        fallback_mode := FallbackMode.fbConvert, preview := false, out_dir := "out",
        index := [("a", [{ stem := "a", suffix := ".jpg", size := 5 }])] }
      [] [({ raw_path := some "a.jpg", rename_val := none }, 1)]).state.not_found_rows = [] ∧
    (run
      { rename_enabled := false, preferred_ext := ".jpg",
        fallback_mode := FallbackMode.fbConvert, preview := false, out_dir := "out",
        index := [("a", [{ stem := "a", suffix := ".jpg", size := 5 }])] }
      [] [({ raw_path := some "a.jpg", rename_val := none }, 1)]).summary = none ∧
    (run
      { rename_enabled := false, preferred_ext := ".jpg",
        fallback_mode := FallbackMode.fbConvert, preview := false, out_dir := "out",
        index := [("a", [{ stem := "a", suffix := ".jpg", size := 5 }])] }
      [] [({ raw_path := some "a.jpg", rename_val := none }, 1)]).report = none := by
  decide

/-! ### Claim C1: which counter bucket a row increments -/

theorem fallbackAction_deltas (cfg : Config) (st : RunState) (row : Row) (src : FSFile)
    (dest : String) :
    ∃ d, (fallbackAction cfg st row src dest).written.length = st.written.length + d ∧
      (fallbackAction cfg st row src dest).copied_renamed +
        (fallbackAction cfg st row src dest).converted_renamed =
        st.copied_renamed + st.converted_renamed + (if cfg.rename_enabled then d else 0) ∧
      (fallbackAction cfg st row src dest).copied_original +
        (fallbackAction cfg st row src dest).converted_original =
        st.copied_original + st.converted_original + (if cfg.rename_enabled then 0 else d) := by
  cases hm : cfg.fallback_mode with
  | fbNone =>
    refine ⟨0, ?_, ?_, ?_⟩ <;> simp [fallbackAction, hm]
  | fbCopy =>
    by_cases hre : cfg.rename_enabled
    · refine ⟨1, ?_, ?_, ?_⟩ <;> simp [fallbackAction, hm, hre] <;> omega
    · refine ⟨1, ?_, ?_, ?_⟩ <;> simp [fallbackAction, hm, hre] <;> omega
  | fbConvert =>
    by_cases hre : cfg.rename_enabled
    · refine ⟨1, ?_, ?_, ?_⟩ <;> simp [fallbackAction, hm, hre] <;> omega
    · refine ⟨1, ?_, ?_, ?_⟩ <;> simp [fallbackAction, hm, hre] <;> omega

/-- Claim C1 (amended): per processed row at most one file is written, and
the counter bucket is decided by the run-level `rename_enabled` flag (a
rename column was selected), independent of the row's rename value and of
whether the file was copied or converted: the renamed totals grow by the
number of files written when `rename_enabled` is set, and the original totals
grow by it otherwise. -/
theorem claim_C1_amended (cfg : Config) (st : RunState) (row : Row) (dlg : Int) :
    ∃ d,
      ((processRow cfg st row dlg).elim id id).written.length = st.written.length + d ∧
      ((processRow cfg st row dlg).elim id id).copied_renamed +
        ((processRow cfg st row dlg).elim id id).converted_renamed =
        st.copied_renamed + st.converted_renamed + (if cfg.rename_enabled then d else 0) ∧
      ((processRow cfg st row dlg).elim id id).copied_original +
        ((processRow cfg st row dlg).elim id id).converted_original =
        st.copied_original + st.converted_original + (if cfg.rename_enabled then 0 else d) := by
  cases hr : row.raw_path with
  | none =>
    refine ⟨0, ?_, ?_, ?_⟩ <;> simp [processRow, hr]
  | some raw =>
    rcases hf : find_image_file cfg.index cfg.preferred_ext (original_stem_of raw) with
      ⟨srcO, was_fb⟩
    cases srcO with
    | none =>
      refine ⟨0, ?_, ?_, ?_⟩ <;> simp [processRow, hr, hf]
    | some src =>
      by_cases hwf : was_fb = some true
      · subst hwf
        cases hm : cfg.fallback_mode with
        | fbNone =>
          refine ⟨0, ?_, ?_, ?_⟩ <;> simp [processRow, hr, hf, hm]
        | fbCopy =>
          obtain ⟨d, h1, h2, h3⟩ := fallbackAction_deltas cfg st row src
            (resolve_output_path st.fs cfg.out_dir
              (output_stem_of cfg row (original_stem_of raw)) cfg.preferred_ext)
          have hres : processRow cfg st row dlg = Sum.inl (fallbackAction cfg st row src
              (resolve_output_path st.fs cfg.out_dir
                (output_stem_of cfg row (original_stem_of raw)) cfg.preferred_ext)) := by
            simp [processRow, hr, hf, hm]
          rw [hres]
          simp only [Sum.elim_inl, id_eq]
          exact ⟨d, h1, h2, h3⟩
        | fbConvert =>
          by_cases hca : st.convert_all_mode
          · obtain ⟨d, h1, h2, h3⟩ := fallbackAction_deltas cfg st row src
              (resolve_output_path st.fs cfg.out_dir
                (output_stem_of cfg row (original_stem_of raw)) cfg.preferred_ext)
            have hres : processRow cfg st row dlg = Sum.inl (fallbackAction cfg st row src
                (resolve_output_path st.fs cfg.out_dir
                  (output_stem_of cfg row (original_stem_of raw)) cfg.preferred_ext)) := by
              simp [processRow, hr, hf, hm, hca]
            rw [hres]
            simp only [Sum.elim_inl, id_eq]
            exact ⟨d, h1, h2, h3⟩
          · by_cases hpv : cfg.preview
            · by_cases hd1 : dlg = -1
              · refine ⟨0, ?_, ?_, ?_⟩ <;> simp [processRow, hr, hf, hm, hca, hpv, hd1]
              · by_cases hd0 : dlg = 0
                · refine ⟨0, ?_, ?_, ?_⟩ <;>
                    simp [processRow, hr, hf, hm, hca, hpv, hd1, hd0]
                · by_cases hd2 : dlg = 2
                  · obtain ⟨d, h1, h2, h3⟩ := fallbackAction_deltas cfg
                      { st with convert_all_mode := true } row src
                      (resolve_output_path st.fs cfg.out_dir
                        (output_stem_of cfg row (original_stem_of raw)) cfg.preferred_ext)
                    have hres : processRow cfg st row dlg =
                        Sum.inl (fallbackAction cfg { st with convert_all_mode := true } row src
                          (resolve_output_path st.fs cfg.out_dir
                            (output_stem_of cfg row (original_stem_of raw))
                            cfg.preferred_ext)) := by
                      simp [processRow, hr, hf, hm, hca, hpv, hd1, hd0, hd2]
                    rw [hres]
                    simp only [Sum.elim_inl, id_eq]
                    refine ⟨d, ?_, ?_, ?_⟩
                    · simpa using h1
                    · simpa using h2
                    · simpa using h3
                  · obtain ⟨d, h1, h2, h3⟩ := fallbackAction_deltas cfg st row src
                      (resolve_output_path st.fs cfg.out_dir
                        (output_stem_of cfg row (original_stem_of raw)) cfg.preferred_ext)
                    have hres : processRow cfg st row dlg =
                        Sum.inl (fallbackAction cfg st row src
                          (resolve_output_path st.fs cfg.out_dir
                            (output_stem_of cfg row (original_stem_of raw))
                            cfg.preferred_ext)) := by
                      simp [processRow, hr, hf, hm, hca, hpv, hd1, hd0, hd2]
                    rw [hres]
                    simp only [Sum.elim_inl, id_eq]
                    exact ⟨d, h1, h2, h3⟩
            · obtain ⟨d, h1, h2, h3⟩ := fallbackAction_deltas cfg st row src
                (resolve_output_path st.fs cfg.out_dir
                  (output_stem_of cfg row (original_stem_of raw)) cfg.preferred_ext)
              have hres : processRow cfg st row dlg = Sum.inl (fallbackAction cfg st row src
                  (resolve_output_path st.fs cfg.out_dir
                    (output_stem_of cfg row (original_stem_of raw)) cfg.preferred_ext)) := by
                simp [processRow, hr, hf, hm, hca, hpv]
              rw [hres]
              simp only [Sum.elim_inl, id_eq]
              exact ⟨d, h1, h2, h3⟩
      · by_cases hre : cfg.rename_enabled
        · refine ⟨1, ?_, ?_, ?_⟩ <;> simp [processRow, hr, hf, hwf, hre] <;> omega
        · refine ⟨1, ?_, ?_, ?_⟩ <;> simp [processRow, hr, hf, hwf, hre] <;> omega

/-- Counterexample to claim C1 as stated: a rename column is selected but the
row's rename cell is blank; the claim says this row counts toward the
original bucket, yet the engine tallies it as copied-renamed. -/
theorem claim_C1_counterexample :
    let r := (processRow
        { rename_enabled := true, preferred_ext := ".jpg",
          fallback_mode := FallbackMode.fbConvert, preview := false, out_dir := "out",
          index := [("a", [{ stem := "a", suffix := ".jpg", size := 5 }])] }
        (initState []) { raw_path := some "a.jpg", rename_val := some "" } 1).elim id id
    pyStripStr "" = "" ∧ r.copied_renamed = 1 ∧ r.copied_original = 0 ∧
    r.converted_original = 0 ∧ r.written.length = 1 := by
  decide

end ImageToolQt
